import Mathlib

/-!
Verification development for the GlyphMoji transcoding engine (src/app.py).

Python strings are modelled as lists of Unicode code points (`List Nat`):
Python `str` is a sequence of code points (including lone surrogates, which
Lean's `Char` cannot carry), so `List Nat` is the faithful shallow embedding.
Each definition below embeds the correspondingly named Python function.
Loops that consume their input are written with an explicit structural fuel
argument, seeded with enough fuel that it never runs out (made precise by
the fuel-irrelevance lemmas proved right after each definition); this keeps
every definition kernel-computable.
-/

namespace Glyphmoji

/-- Python `str.isspace` / the whitespace set used by `str.split()` with no
arguments: the Unicode whitespace code points. -/
def isSpacePy (c : Nat) : Bool :=
  c == 32 || (9 ≤ c && c ≤ 13) || (28 ≤ c && c ≤ 31) || c == 133 || c == 160 ||
  c == 5760 || (8192 ≤ c && c ≤ 8202) || c == 8232 || c == 8233 || c == 8239 ||
  c == 8287 || c == 12288

/-- Python `str.lower`, restricted to ASCII case folding (A-Z map to a-z, all
other code points are fixed).  CPython's full Unicode lowering agrees with
this on every input the program's tables can distinguish: the chart keys are
the 26 lowercase ASCII letters and the space, and apart from A-Z no code
point relevant to the claims lowers into that key set. -/
def pyLowerAscii (c : Nat) : Nat :=
  if 65 ≤ c ∧ c ≤ 90 then c + 32 else c

/-- Fuelled loop of Python `str.split()` with no separator: skip whitespace,
emit maximal non-whitespace runs. -/
def pySplitGo : Nat → List Nat → List (List Nat)
  | 0, _ => []
  | _ + 1, [] => []
  | fuel + 1, c :: cs =>
    if isSpacePy c then pySplitGo fuel cs
    else
      ((c :: cs).takeWhile (fun d => !isSpacePy d)) ::
        pySplitGo fuel ((c :: cs).dropWhile (fun d => !isSpacePy d))

/-- Python `str.split()` with no separator: the loop consumes at least one
character per step, so the input length is enough fuel. -/
def pySplit (s : List Nat) : List (List Nat) :=
  pySplitGo s.length s

theorem pySplitGo_nil : ∀ f, pySplitGo f [] = []
  | 0 => rfl
  | _ + 1 => rfl

theorem pySplitGo_irrel :
    ∀ f f' (s : List Nat), s.length ≤ f → s.length ≤ f' →
      pySplitGo f s = pySplitGo f' s := by
  intro f
  induction f with
  | zero =>
    intro f' s hf _
    have : s = [] := List.length_eq_zero.mp (Nat.le_zero.mp hf)
    subst this
    rw [pySplitGo_nil, pySplitGo_nil]
  | succ f ih =>
    intro f' s hf hf'
    cases s with
    | nil => rw [pySplitGo_nil, pySplitGo_nil]
    | cons c cs =>
      cases f' with
      | zero => simp at hf'
      | succ f' =>
        simp only [List.length_cons] at hf hf'
        rw [pySplitGo, pySplitGo]
        by_cases h : isSpacePy c
        · rw [if_pos h, if_pos h]
          exact ih f' cs (by omega) (by omega)
        · rw [if_neg h, if_neg h]
          have hdrop : ((c :: cs).dropWhile (fun d => !isSpacePy d)).length ≤
              cs.length := by
            rw [List.dropWhile_cons_of_pos (by simp [h])]
            exact (List.dropWhile_sublist (fun d => !isSpacePy d)).length_le
          rw [ih f' _ (by omega) (by omega)]

theorem pySplit_nil : pySplit [] = [] := rfl

/-- One-step unfolding of `pySplit` on a nonempty string. -/
theorem pySplit_cons (c : Nat) (cs : List Nat) :
    pySplit (c :: cs) =
      if isSpacePy c then pySplit cs
      else
        ((c :: cs).takeWhile (fun d => !isSpacePy d)) ::
          pySplit ((c :: cs).dropWhile (fun d => !isSpacePy d)) := by
  show pySplitGo (c :: cs).length (c :: cs) = _
  simp only [List.length_cons]
  rw [pySplitGo]
  by_cases h : isSpacePy c
  · rw [if_pos h, if_pos h]
    rfl
  · rw [if_neg h, if_neg h]
    have hdrop : ((c :: cs).dropWhile (fun d => !isSpacePy d)).length ≤
        cs.length := by
      rw [List.dropWhile_cons_of_pos (by simp [h])]
      exact (List.dropWhile_sublist (fun d => !isSpacePy d)).length_le
    rw [pySplitGo_irrel cs.length
      ((c :: cs).dropWhile (fun d => !isSpacePy d)).length _ hdrop le_rfl]
    rfl

/-- The literal `CHART_EMOJI` dictionary of src/app.py, key/value pairs in
source order, every string given by its exact code points as they stand in
the file (the file's glyph literals are mojibake: UTF-8 emoji bytes that were
decoded as cp1252, so several of them collapsed to identical strings —
notably the values for c and m coincide, as do the values for g and i). -/
def CHART_EMOJI : List (Nat × List Nat) := [
  (97, [240, 376, 732, 8364]),
  (98, [240, 376, 8217]),
  (99, [240, 376, 338]),
  (100, [240, 376, 169]),
  (101, [240, 376, 165, 353]),
  (102, [240, 376, 376]),
  (103, [240, 376, 166]),
  (104, [240, 376, 161]),
  (105, [240, 376, 166]),
  (106, [240, 376, 8226, 185, 239, 184]),
  (107, [240, 376, 8221, 8216]),
  (108, [240, 376, 8249]),
  (109, [240, 376, 338]),
  (110, [240, 376, 381, 182]),
  (111, [240, 376, 352]),
  (112, [240, 376, 165, 382]),
  (113, [226, 8220]),
  (114, [240, 376, 338, 710]),
  (115, [226, 173]),
  (116, [240, 376, 338, 180]),
  (117, [226, 732, 8218, 239, 184]),
  (118, [240, 376, 338, 8249]),
  (119, [240, 376, 338, 352]),
  (120, [226, 338]),
  (121, [240, 376, 184]),
  (122, [226, 353, 161]),
  (32, [226, 172, 339])]

/-- Lookup in `CHART_EMOJI` (Python `CHART_EMOJI.get(ch)`); the keys are
pairwise distinct, so first match equals dict lookup. -/
def CHART_lookup (c : Nat) : Option (List Nat) :=
  (CHART_EMOJI.find? (fun p => p.1 == c)).map (fun p => p.2)

/-- Lookup in `REV_EMOJI = {v: k for k, v in CHART_EMOJI.items()}`.  The
comprehension assigns in source order, so for a duplicated value the LAST key
wins; searching the reversed pair list reproduces that. -/
def REV_lookup (t : List Nat) : Option Nat :=
  (CHART_EMOJI.reverse.find? (fun p => p.2 == t)).map (fun p => p.1)

/-- The `max_len` of `decode_emoji_text`: the source sorts the reverse-index
keys by length, descending, and takes the first key's length (default 1 on an
empty index) — that is, the maximum token length, with the same default. -/
def max_len : Nat :=
  (CHART_EMOJI.map (fun p => p.2.length)).foldr Nat.max 1

/-- The candidate lengths `range(n, 0, -1)` = [n, n-1, ..., 1]. -/
def lensDesc (n : Nat) : List Nat :=
  (List.range n).map (fun i => n - i)

/-- The inner loop of `decode_emoji_text`: try each candidate length `L` in
order; `tok = glyphs[i:i+L]` is `g.take L` (Python slicing truncates at the
end of the string); on the first `tok in REV_EMOJI`, return the length
together with `REV_EMOJI[tok]` (the dict membership test guards the access,
so the lookup result is carried along). -/
def tryLens (g : List Nat) : List Nat → Option (Nat × Nat)
  | [] => none
  | L :: Ls =>
    match REV_lookup (g.take L) with
    | some k => some (L, k)
    | none => tryLens g Ls

/-- One scan step of `decode_emoji_text` at the current position. -/
def matchTok (g : List Nat) : Option (Nat × Nat) :=
  tryLens g (lensDesc max_len)

theorem tryLens_some_mem (g : List Nat) (Ls : List Nat) (L k : Nat)
    (h : tryLens g Ls = some (L, k)) : L ∈ Ls := by
  induction Ls with
  | nil => simp [tryLens] at h
  | cons L₀ Ls ih =>
    rw [tryLens] at h
    cases hl : REV_lookup (g.take L₀) with
    | some k₀ =>
      rw [hl] at h
      simp at h
      simp [h.1]
    | none =>
      rw [hl] at h
      exact List.mem_cons_of_mem _ (ih h)

theorem mem_lensDesc {n L : Nat} (h : L ∈ lensDesc n) : 1 ≤ L ∧ L ≤ n := by
  simp only [lensDesc, List.mem_map, List.mem_range] at h
  obtain ⟨i, hi, rfl⟩ := h
  omega

theorem matchTok_pos {g : List Nat} {L k : Nat}
    (h : matchTok g = some (L, k)) : 1 ≤ L :=
  (mem_lensDesc (tryLens_some_mem _ _ _ _ h)).1

/-- Per-character step of `encode_emoji_text`:
`mapped = CHART_EMOJI.get(ch) or CHART_EMOJI.get(ch.lower())`, then append
`mapped` when it is not `None`, else the character itself.  (Python's `or`
tests truthiness; every token in the chart is a nonempty string, so it
coincides with taking the first non-`None` alternative.) -/
def encChar (ch : Nat) : List Nat :=
  match CHART_lookup ch with
  | some t => t
  | none =>
    match CHART_lookup (pyLowerAscii ch) with
    | some t => t
    | none => [ch]

/-- Embedding of `encode_emoji_text` (src/app.py lines 102-107). -/
def encode_emoji_text (text : List Nat) : List Nat :=
  (text.map encChar).flatten

/-- Fuelled loop of `decode_emoji_text`. -/
def decodeGo : Nat → List Nat → List Nat
  | 0, _ => []
  | _ + 1, [] => []
  | fuel + 1, c :: rest =>
    match matchTok (c :: rest) with
    | some (L, k) => k :: decodeGo fuel ((c :: rest).drop L)
    | none => c :: decodeGo fuel rest

/-- Embedding of `decode_emoji_text` (src/app.py lines 109-126): scan left to
right; at each position try candidate lengths from `max_len` down to 1 and
consume the first token found in the reverse index, emitting its plain
character; otherwise emit the current character and advance by one.  Every
step consumes at least one character, so the input length is enough fuel. -/
def decode_emoji_text (glyphs : List Nat) : List Nat :=
  decodeGo glyphs.length glyphs

theorem decodeGo_nil : ∀ f, decodeGo f [] = []
  | 0 => rfl
  | _ + 1 => rfl

theorem decodeGo_irrel :
    ∀ f f' (g : List Nat), g.length ≤ f → g.length ≤ f' →
      decodeGo f g = decodeGo f' g := by
  intro f
  induction f with
  | zero =>
    intro f' g hf _
    have : g = [] := List.length_eq_zero.mp (Nat.le_zero.mp hf)
    subst this
    rw [decodeGo_nil, decodeGo_nil]
  | succ f ih =>
    intro f' g hf hf'
    cases g with
    | nil => rw [decodeGo_nil, decodeGo_nil]
    | cons c rest =>
      cases f' with
      | zero => simp at hf'
      | succ f' =>
        simp only [List.length_cons] at hf hf'
        rw [decodeGo, decodeGo]
        cases hm : matchTok (c :: rest) with
        | some Lk =>
          obtain ⟨L, k⟩ := Lk
          have hL : 1 ≤ L := matchTok_pos hm
          have hlen : ((c :: rest).drop L).length ≤ rest.length := by
            simp only [List.length_drop, List.length_cons]
            omega
          show k :: decodeGo f ((c :: rest).drop L) =
            k :: decodeGo f' ((c :: rest).drop L)
          rw [ih f' _ (by omega) (by omega)]
        | none =>
          show c :: decodeGo f rest = c :: decodeGo f' rest
          rw [ih f' rest (by omega) (by omega)]

/-- One-step unfolding of `decode_emoji_text` on a nonempty input. -/
theorem decode_emoji_cons (c : Nat) (rest : List Nat) :
    decode_emoji_text (c :: rest) =
      match matchTok (c :: rest) with
      | some (L, k) => k :: decode_emoji_text ((c :: rest).drop L)
      | none => c :: decode_emoji_text rest := by
  show decodeGo (c :: rest).length (c :: rest) = _
  simp only [List.length_cons]
  rw [decodeGo]
  cases hm : matchTok (c :: rest) with
  | some Lk =>
    obtain ⟨L, k⟩ := Lk
    have hL : 1 ≤ L := matchTok_pos hm
    have hlen : ((c :: rest).drop L).length ≤ rest.length := by
      simp only [List.length_drop, List.length_cons]
      omega
    show k :: decodeGo rest.length ((c :: rest).drop L) =
      k :: decode_emoji_text ((c :: rest).drop L)
    rw [decodeGo_irrel _ _ _ (by omega) le_rfl]
    rfl
  | none =>
    show c :: decodeGo rest.length rest = c :: decode_emoji_text rest
    rfl

/-- Hex digit character (lowercase) for a value below 16, as produced by
Python's `format(n, "x")`: 0-9 then a-f. -/
def hexDigit (n : Nat) : Nat :=
  if n < 10 then 48 + n else 87 + n

/-- Fuelled digit-production loop behind Python's `"{:x}".format`: peel the
least-significant base-16 digit onto the accumulator.  Each step divides `n`
by 16, so `n + 1` is enough fuel. -/
def toHexGo : Nat → Nat → List Nat → List Nat
  | 0, _, acc => acc
  | fuel + 1, n, acc =>
    if n < 16 then hexDigit n :: acc
    else toHexGo fuel (n / 16) (hexDigit (n % 16) :: acc)

theorem toHexGo_irrel :
    ∀ f f' n (acc : List Nat), n < f → n < f' →
      toHexGo f n acc = toHexGo f' n acc := by
  intro f
  induction f with
  | zero => intro f' n acc hf; omega
  | succ f ih =>
    intro f' n acc hf hf'
    cases f' with
    | zero => omega
    | succ f' =>
      rw [toHexGo, toHexGo]
      by_cases h : n < 16
      · rw [if_pos h, if_pos h]
      · rw [if_neg h, if_neg h]
        have hdiv : n / 16 < n := Nat.div_lt_self (by omega) (by omega)
        exact ih f' (n / 16) _ (by omega) (by omega)

/-- Lowercase hex digits of `n`, most significant first (`f"{n:x}"`). -/
def toHex (n : Nat) : List Nat :=
  toHexGo (n + 1) n []

/-- Python `f"{n:04x}"` (without the marker): lowercase hex digits of `n`,
zero-padded on the left to a minimum width of 4. -/
def hex4 (n : Nat) : List Nat :=
  List.replicate (4 - (toHex n).length) 48 ++ toHex n

/-- The escape emitted for one character: `f"\\u{ord(ch):04x}"`. -/
def escChar (c : Nat) : List Nat :=
  92 :: 117 :: hex4 c

/-- Python `sep.join(parts)`: the parts concatenated with `sep` between
consecutive parts. -/
def joinSep (sep : List Nat) : List (List Nat) → List Nat
  | [] => []
  | [p] => p
  | p :: p' :: ps => p ++ sep ++ joinSep sep (p' :: ps)

/-- Embedding of `unicode_encode` (src/app.py lines 128-132): one escape per
character, joined by `" ".join`. -/
def unicode_encode (text : List Nat) : List Nat :=
  joinSep [32] (text.map escChar)

/-- Numeric value of a hexadecimal digit character, accepting 0-9, a-f, A-F
(`none` otherwise).  CPython's `int(s, 16)` additionally accepts non-ASCII
code points of Unicode category Nd as decimal digits; no input in this
development contains such a code point, and the program never produces one. -/
def hexDigitVal (c : Nat) : Option Nat :=
  if 48 ≤ c ∧ c ≤ 57 then some (c - 48)
  else if 97 ≤ c ∧ c ≤ 102 then some (c - 87)
  else if 65 ≤ c ∧ c ≤ 70 then some (c - 55)
  else none

/-- Digit tail of CPython's integer literal grammar for `int(s, 16)`:
`(underscore? digit)*`, a single underscore allowed only between digits. -/
def goDigits (acc : Nat) : List Nat → Option Nat
  | [] => some acc
  | c :: cs =>
    if c = 95 then
      match cs with
      | [] => none
      | c' :: cs' =>
        match hexDigitVal c' with
        | some v => goDigits (16 * acc + v) cs'
        | none => none
    else
      match hexDigitVal c with
      | some v => goDigits (16 * acc + v) cs
      | none => none

/-- Digit part of `int(s, 16)` after sign and base prefix: at least one
digit, single underscores only between digits; `allowU` permits one leading
underscore, which CPython accepts directly after a `0x` prefix. -/
def parseDigits (allowU : Bool) : List Nat → Option Nat
  | [] => none
  | c :: cs =>
    if allowU ∧ c = 95 then
      match cs with
      | [] => none
      | c' :: cs' =>
        match hexDigitVal c' with
        | some v => goDigits v cs'
        | none => none
    else
      match hexDigitVal c with
      | some v => goDigits v cs
      | none => none

/-- Strip leading and trailing Python whitespace, as `int()` does before
parsing. -/
def stripWs (s : List Nat) : List Nat :=
  ((s.dropWhile isSpacePy).reverse.dropWhile isSpacePy).reverse

/-- Consume one optional sign: `true` means negative. -/
def readSign : List Nat → Bool × List Nat
  | [] => (false, [])
  | c :: rest =>
    if c = 43 then (false, rest)
    else if c = 45 then (true, rest)
    else (false, c :: rest)

/-- Consume one optional `0x` / `0X` base prefix. -/
def readPrefix0x : List Nat → Bool × List Nat
  | a :: b :: rest =>
    if a = 48 ∧ (b = 120 ∨ b = 88) then (true, rest)
    else (false, a :: b :: rest)
  | s => (false, s)

/-- Embedding of CPython `int(s, 16)`: surrounding whitespace stripped, an
optional single sign, an optional `0x`/`0X` prefix, then hex digits with
single underscores between digits (one also allowed right after the prefix). -/
def pyIntHex (s : List Nat) : Option Int :=
  let sg := readSign (stripWs s)
  let pf := readPrefix0x sg.2
  match parseDigits pf.1 pf.2 with
  | some v => some (if sg.1 then -(v : Int) else (v : Int))
  | none => none

/-- Embedding of CPython `chr`: defined exactly on 0..0x10FFFF (lone
surrogates included), raising `ValueError` — here `none` — outside. -/
def chrPyInt (n : Int) : Option Nat :=
  if 0 ≤ n ∧ n ≤ 1114111 then some n.toNat else none

/-- Per-token body of the `unicode_decode` loop: a token starting with the
two-character marker `\u` has its remainder parsed as hex and turned into
the character at that code point; on any failure (the `except` branch, or no
marker) the token is emitted unchanged. -/
def procToken (p : List Nat) : List Nat :=
  if p.take 2 = [92, 117] then
    match pyIntHex (p.drop 2) with
    | some n =>
      match chrPyInt n with
      | some ch => [ch]
      | none => p
    | none => p
  else p

/-- Embedding of `unicode_decode` (src/app.py lines 134-145): split on
whitespace, process each token, concatenate with no separator. -/
def unicode_decode (text : List Nat) : List Nat :=
  ((pySplit text).map procToken).flatten

/-- The mode string literal "emoji". -/
def emojiStr : List Nat := [101, 109, 111, 106, 105]

/-- The mode string literal "unicode". -/
def unicodeStr : List Nat := [117, 110, 105, 99, 111, 100, 101]

/-- Embedding of `encode_text_with_mode` (src/app.py lines 147-152). -/
def encode_text_with_mode (text mode : List Nat) : List Nat :=
  if mode = emojiStr then encode_emoji_text text
  else if mode = unicodeStr then unicode_encode text
  else text

/-- Embedding of `decode_text_with_mode` (src/app.py lines 154-159). -/
def decode_text_with_mode (text mode : List Nat) : List Nat :=
  if mode = emojiStr then decode_emoji_text text
  else if mode = unicodeStr then unicode_decode text
  else text

/-- The in-memory `modes` dictionary: chat-id string to mode string.  The
`save_modes` call writes the same map to disk and returns nothing; the file
is external state and does not feed back into any of the functions here, so
the map itself is the state. -/
def ModeMap : Type := List Nat → Option (List Nat)

/-- Fuelled decimal digit loop for Python `str` of a nonnegative integer. -/
def toDecGo : Nat → Nat → List Nat → List Nat
  | 0, _, acc => acc
  | fuel + 1, n, acc =>
    if n < 10 then (48 + n) :: acc
    else toDecGo fuel (n / 10) ((48 + n % 10) :: acc)

/-- Python `str(n)` for an `int`: decimal digits, minus sign when negative. -/
def pyStrInt (n : Int) : List Nat :=
  if n < 0 then 45 :: toDecGo ((-n).toNat + 1) (-n).toNat []
  else toDecGo (n.toNat + 1) n.toNat []

/-- Embedding of `get_mode_for_chat` (src/app.py lines 94-95):
`modes.get(str(chat_id), "emoji")`. -/
def get_mode_for_chat (modes : ModeMap) (chat : Int) : List Nat :=
  (modes (pyStrInt chat)).getD emojiStr

/-- Embedding of `set_mode_for_chat` (src/app.py lines 97-99):
`modes[str(chat_id)] = mode` (plus the external `save_modes` write). -/
def set_mode_for_chat (modes : ModeMap) (chat : Int) (mode : List Nat) :
    ModeMap :=
  fun k => if k = pyStrInt chat then some mode else modes k

/-- The reply sent back by the `/changemod` handler. -/
inductive ChangemodReply : Type
  | invalid : ChangemodReply
  | setTo : List Nat → ChangemodReply
  | toggled : List Nat → ChangemodReply
deriving DecidableEq

/-- Embedding of `handle_changemod` (src/app.py lines 231-247) as a state
transformer on the modes map: split the message text; with an argument,
lowercase it, reject anything other than "emoji"/"unicode" without touching
the map, otherwise store it; with no argument, toggle. -/
def handle_changemod (modes : ModeMap) (chat : Int) (msgText : List Nat) :
    ModeMap × ChangemodReply :=
  let parts := pySplit msgText
  let current := get_mode_for_chat modes chat
  match parts with
  | _ :: p1 :: _ =>
    let arg := p1.map pyLowerAscii
    if arg ≠ emojiStr ∧ arg ≠ unicodeStr then (modes, ChangemodReply.invalid)
    else (set_mode_for_chat modes chat arg, ChangemodReply.setTo arg)
  | _ =>
    let newMode := if current = emojiStr then unicodeStr else emojiStr
    (set_mode_for_chat modes chat newMode, ChangemodReply.toggled newMode)

/-! Shared lemmas about the symbol decoder's matching step. -/

theorem tryLens_some_lookup (g : List Nat) (Ls : List Nat) (L k : Nat)
    (h : tryLens g Ls = some (L, k)) : REV_lookup (g.take L) = some k := by
  induction Ls with
  | nil => simp [tryLens] at h
  | cons L₀ Ls ih =>
    rw [tryLens] at h
    cases hl : REV_lookup (g.take L₀) with
    | some k₀ =>
      rw [hl] at h
      simp at h
      rw [h.1, h.2] at hl
      exact hl
    | none =>
      rw [hl] at h
      exact ih h

/-- Every token in the reverse index is one of the chart's value strings, so
its length lies between 2 and 6. -/
theorem REV_token_len {t : List Nat} {k : Nat} (h : REV_lookup t = some k) :
    2 ≤ t.length ∧ t.length ≤ 6 := by
  rw [REV_lookup] at h
  cases hf : CHART_EMOJI.reverse.find? (fun p => p.2 == t) with
  | none => rw [hf] at h; simp at h
  | some pr =>
    have hmem := List.mem_of_find?_eq_some hf
    have hpred := List.find?_some hf
    have ht : pr.2 = t := by simpa using hpred
    subst ht
    have hall : ∀ pr ∈ CHART_EMOJI.reverse,
        2 ≤ pr.2.length ∧ pr.2.length ≤ 6 := by decide
    exact hall pr hmem

theorem matchTok_none_of_no_token (g : List Nat)
    (h : ∀ t k, REV_lookup t = some k → ¬ t <+: g) : matchTok g = none := by
  cases hm : matchTok g with
  | none => rfl
  | some Lk =>
    obtain ⟨L, k⟩ := Lk
    have hl := tryLens_some_lookup _ _ _ _ hm
    exact absurd (List.take_prefix L g) (h _ _ hl)

/-! Claim C1. -/

/-- C1: the claimed Symbol-scheme law `decode(encode(s)) = lowercase(s)` is
violated by the program: the chart's mojibake-corrupted value strings for c
and m (and for g and i) are identical, so the reverse index sends the shared
token to the later key, and encoding "c" decodes to "m" (encoding "g"
decodes to "i"). -/
theorem C1_roundtrip_fails_on_c :
    decode_emoji_text (encode_emoji_text [99]) = [109] ∧
    decode_emoji_text (encode_emoji_text [103]) = [105] ∧
    ([109] : List Nat) ≠ [99] := by decide

/-! Claim C9. -/

/-- C9: the Symbol alphabet table is NOT a bijection over its domain: the
distinct input characters c (99) and m (109) map to the same output token,
as do g (103) and i (105), and reverse lookup after lookup sends c to m
rather than back to c. -/
theorem C9_chart_not_injective :
    CHART_lookup 99 = CHART_lookup 109 ∧ (99 : Nat) ≠ 109 ∧
    CHART_lookup 103 = CHART_lookup 105 ∧ (103 : Nat) ≠ 105 ∧
    CHART_lookup 99 = some [240, 376, 338] ∧
    REV_lookup [240, 376, 338] = some 109 := by decide

/-! Claim C5. -/

/-- C5: any mode string other than "emoji" and "unicode" selects the
identity transform in both `encode_text_with_mode` and
`decode_text_with_mode`; it is never an error. -/
theorem C5_unknown_mode_identity (text mode : List Nat)
    (he : mode ≠ emojiStr) (hu : mode ≠ unicodeStr) :
    encode_text_with_mode text mode = text ∧
    decode_text_with_mode text mode = text := by
  rw [encode_text_with_mode, decode_text_with_mode, if_neg he, if_neg hu,
    if_neg he, if_neg hu]
  exact ⟨rfl, rfl⟩

theorem C5_unknown_mode_identity_witness :
    (([120] : List Nat) ≠ emojiStr ∧ ([120] : List Nat) ≠ unicodeStr) ∧
    encode_text_with_mode [97, 98] [120] = [97, 98] ∧
    decode_text_with_mode [97, 98] [120] = [97, 98] :=
  ⟨⟨by decide, by decide⟩,
    (C5_unknown_mode_identity [97, 98] [120] (by decide) (by decide)).1,
    (C5_unknown_mode_identity [97, 98] [120] (by decide) (by decide)).2⟩

/-! Claim C10. -/

/-- C10: after `set_mode_for_chat c m`, `get_mode_for_chat c` returns `m`,
and any chat id whose string form differs keeps its previous mode. -/
theorem C10_set_then_get_frame (modes : ModeMap) (c : Int) (m : List Nat)
    (c' : Int) (h : pyStrInt c' ≠ pyStrInt c) :
    get_mode_for_chat (set_mode_for_chat modes c m) c = m ∧
    get_mode_for_chat (set_mode_for_chat modes c m) c' =
      get_mode_for_chat modes c' := by
  constructor
  · rw [get_mode_for_chat, set_mode_for_chat, if_pos rfl]
    rfl
  · rw [get_mode_for_chat, set_mode_for_chat, if_neg h]
    rfl

theorem C10_set_then_get_frame_witness :
    pyStrInt (2 : Int) ≠ pyStrInt 1 ∧
    get_mode_for_chat (set_mode_for_chat (fun _ => none) 1 unicodeStr) 1 =
      unicodeStr ∧
    get_mode_for_chat (set_mode_for_chat (fun _ => none) 1 unicodeStr) 2 =
      get_mode_for_chat (fun _ => none) 2 :=
  ⟨by decide,
    (C10_set_then_get_frame (fun _ => none) 1 unicodeStr 2 (by decide)).1,
    (C10_set_then_get_frame (fun _ => none) 1 unicodeStr 2 (by decide)).2⟩

/-! Claim C8. -/

/-- C8: when `/changemod` is called with an argument that after lowercasing
is neither "emoji" nor "unicode", the handler replies with the rejection and
leaves the modes map untouched, so a subsequent `get_mode_for_chat` returns
the prior value. -/
theorem C8_invalid_mode_no_mutation (modes : ModeMap) (chat : Int)
    (msgText cmd arg : List Nat) (restParts : List (List Nat))
    (hp : pySplit msgText = cmd :: arg :: restParts)
    (he : arg.map pyLowerAscii ≠ emojiStr)
    (hu : arg.map pyLowerAscii ≠ unicodeStr) :
    handle_changemod modes chat msgText = (modes, ChangemodReply.invalid) ∧
    get_mode_for_chat (handle_changemod modes chat msgText).1 chat =
      get_mode_for_chat modes chat := by
  have hmain : handle_changemod modes chat msgText =
      (modes, ChangemodReply.invalid) := by
    rw [handle_changemod]
    simp only [hp]
    rw [if_pos ⟨he, hu⟩]
  exact ⟨hmain, by rw [hmain]⟩

theorem C8_invalid_mode_no_mutation_witness :
    pySplit [47, 99, 32, 98, 111, 103, 117, 115] = [[47, 99], [98, 111, 103, 117, 115]] ∧
    handle_changemod (fun _ => none) 1 [47, 99, 32, 98, 111, 103, 117, 115] =
      ((fun _ => none : ModeMap), ChangemodReply.invalid) ∧
    get_mode_for_chat
      (handle_changemod (fun _ => none) 1 [47, 99, 32, 98, 111, 103, 117, 115]).1 1 =
      get_mode_for_chat (fun _ => none) 1 :=
  ⟨by decide,
    (C8_invalid_mode_no_mutation (fun _ => none) 1 _ [47, 99]
      [98, 111, 103, 117, 115] [] (by decide) (by decide) (by decide)).1,
    (C8_invalid_mode_no_mutation (fun _ => none) 1 _ [47, 99]
      [98, 111, 103, 117, 115] [] (by decide) (by decide) (by decide)).2⟩

/-! Claim C4. -/

/-- C4: the transcoders are total — every fallible sub-operation is guarded.
First: a whitespace-separated token that begins with the marker but whose
remainder fails hexadecimal parsing, or denotes no valid code point, is
emitted unchanged by the `unicode_decode` token step (the `except`
pass-through).  Second: whenever the symbol decoder's matching step fires,
the reverse-index access it performs is defined (the membership test guards
the dict access), so decoding never raises either. -/
theorem C4_total_passthrough :
    (∀ p : List Nat, p.take 2 = [92, 117] →
      (pyIntHex (p.drop 2) = none ∨
        ∃ n, pyIntHex (p.drop 2) = some n ∧ chrPyInt n = none) →
      procToken p = p) ∧
    (∀ (g : List Nat) (L k : Nat), matchTok g = some (L, k) →
      REV_lookup (g.take L) = some k) := by
  constructor
  · intro p hmark hfail
    rw [procToken, if_pos hmark]
    rcases hfail with hnone | ⟨n, hn, hc⟩
    · rw [hnone]
    · rw [hn]
      show (match chrPyInt n with | some ch => [ch] | none => p) = p
      rw [hc]
  · intro g L k h
    exact tryLens_some_lookup _ _ _ _ h

theorem C4_total_passthrough_witness :
    (([92, 117, 122] : List Nat).take 2 = [92, 117] ∧
      pyIntHex (([92, 117, 122] : List Nat).drop 2) = none ∧
      procToken [92, 117, 122] = [92, 117, 122]) ∧
    (matchTok [240, 376, 338] = some (6, 109) ∧
      REV_lookup (([240, 376, 338] : List Nat).take 6) = some 109) :=
  ⟨⟨by decide, by decide,
      C4_total_passthrough.1 [92, 117, 122] (by decide) (Or.inl (by decide))⟩,
    ⟨by decide, C4_total_passthrough.2 [240, 376, 338] 6 109 (by decide)⟩⟩

/-! Claim C3. -/

theorem tryLens_cons_none (g : List Nat) (L : Nat) (Ls : List Nat)
    (h : REV_lookup (g.take L) = none) : tryLens g (L :: Ls) = tryLens g Ls := by
  rw [tryLens, h]

theorem tryLens_cons_some (g : List Nat) (L : Nat) (Ls : List Nat) (k : Nat)
    (h : REV_lookup (g.take L) = some k) : tryLens g (L :: Ls) = some (L, k) := by
  rw [tryLens, h]

theorem lensDesc_max_len : lensDesc max_len = [6, 5, 4, 3, 2, 1] := by decide

/-- If `t` is a longest reverse-index token that is a prefix of `g`, the
matching step fires on exactly the next `t.length` characters (when `t` is
all of `g`, the truncating slice makes the loop match already at length 6,
consuming the same characters), and yields `t`'s plain character. -/
theorem matchTok_of_longest (g t : List Nat) (k : Nat)
    (hk : REV_lookup t = some k) (hpre : t <+: g)
    (hmax : ∀ t' k', REV_lookup t' = some k' → t' <+: g →
      t'.length ≤ t.length) :
    ∃ L, matchTok g = some (L, k) ∧ g.drop L = g.drop t.length := by
  have hlen := REV_token_len hk
  have htg : t.length ≤ g.length := hpre.length_le
  have htake : g.take t.length = t := by
    have h' := List.prefix_iff_eq_take.mp hpre
    exact h'.symm
  by_cases hcase : t.length = g.length
  · have hteq : t = g := hpre.eq_of_length hcase
    have hg6 : g.length ≤ 6 := by omega
    have h6 : REV_lookup (g.take 6) = some k := by
      rw [List.take_of_length_le hg6, ← hteq]
      exact hk
    refine ⟨6, ?_, ?_⟩
    · rw [matchTok, lensDesc_max_len, tryLens_cons_some _ _ _ _ h6]
    · rw [List.drop_eq_nil_of_le hg6,
        List.drop_eq_nil_of_le (by omega : g.length ≤ t.length)]
  · have hlt : t.length < g.length := lt_of_le_of_ne htg hcase
    have hnone : ∀ L', t.length < L' → REV_lookup (g.take L') = none := by
      intro L' hL'
      cases hrl : REV_lookup (g.take L') with
      | none => rfl
      | some k' =>
        have hple : (g.take L').length ≤ t.length :=
          hmax _ _ hrl (List.take_prefix _ _)
        rw [List.length_take] at hple
        omega
    have hsome : REV_lookup (g.take t.length) = some k := by
      rw [htake]
      exact hk
    refine ⟨t.length, ?_, rfl⟩
    rw [matchTok, lensDesc_max_len]
    have h2 : 2 ≤ t.length := hlen.1
    have h6 : t.length ≤ 6 := hlen.2
    set n := t.length with hn
    interval_cases n
    · rw [tryLens_cons_none _ _ _ (hnone 6 (by omega)),
        tryLens_cons_none _ _ _ (hnone 5 (by omega)),
        tryLens_cons_none _ _ _ (hnone 4 (by omega)),
        tryLens_cons_none _ _ _ (hnone 3 (by omega)),
        tryLens_cons_some _ _ _ _ hsome]
    · rw [tryLens_cons_none _ _ _ (hnone 6 (by omega)),
        tryLens_cons_none _ _ _ (hnone 5 (by omega)),
        tryLens_cons_none _ _ _ (hnone 4 (by omega)),
        tryLens_cons_some _ _ _ _ hsome]
    · rw [tryLens_cons_none _ _ _ (hnone 6 (by omega)),
        tryLens_cons_none _ _ _ (hnone 5 (by omega)),
        tryLens_cons_some _ _ _ _ hsome]
    · rw [tryLens_cons_none _ _ _ (hnone 6 (by omega)),
        tryLens_cons_some _ _ _ _ hsome]
    · rw [tryLens_cons_some _ _ _ _ hsome]

/-- C3: `decode_emoji_text` scans left to right; at a position where no
reverse-index token is a prefix of the remaining input it emits the current
character unchanged and advances by one; and whenever tokens match, the step
consumes a longest matching token and emits its plain character — in
particular, when a longer and a shorter token both match, the longer wins. -/
theorem C3_decode_greedy_longest_match :
    (∀ (c : Nat) (rest : List Nat),
      (∀ t k, REV_lookup t = some k → ¬ t <+: (c :: rest)) →
      decode_emoji_text (c :: rest) = c :: decode_emoji_text rest) ∧
    (∀ (g t : List Nat) (k : Nat), REV_lookup t = some k → t <+: g →
      (∀ t' k', REV_lookup t' = some k' → t' <+: g →
        t'.length ≤ t.length) →
      decode_emoji_text g = k :: decode_emoji_text (g.drop t.length)) := by
  constructor
  · intro c rest h
    rw [decode_emoji_cons, matchTok_none_of_no_token _ h]
  · intro g t k hk hpre hmax
    obtain ⟨L, hm, hdrop⟩ := matchTok_of_longest g t k hk hpre hmax
    have hlen := REV_token_len hk
    have hg : 1 ≤ g.length := le_trans (by omega) hpre.length_le
    cases g with
    | nil => simp at hg
    | cons c rest =>
      rw [decode_emoji_cons, hm]
      show k :: decode_emoji_text ((c :: rest).drop L) =
        k :: decode_emoji_text ((c :: rest).drop t.length)
      rw [hdrop]

theorem C3_decode_greedy_longest_match_witness :
    decode_emoji_text [97] = 97 :: decode_emoji_text [] ∧
    decode_emoji_text [240, 376, 338, 8249] =
      118 :: decode_emoji_text (([240, 376, 338, 8249] : List Nat).drop 4) := by
  constructor
  · exact C3_decode_greedy_longest_match.1 97 []
      (fun t k hk hp => by
        have h2 := (REV_token_len hk).1
        have hle := hp.length_le
        simp at hle
        omega)
  · exact C3_decode_greedy_longest_match.2 [240, 376, 338, 8249]
      [240, 376, 338, 8249] 118 (by decide) (by decide)
      (fun t' k' _ hp' => hp'.length_le)

/-! Claim C7. -/

/-- The string contains a valid Symbol token: some reverse-index token occurs
as a substring, i.e. the decoder's matching step fires at some position. -/
def hasSymbolToken (s : List Nat) : Bool :=
  (List.range s.length).any (fun i => (matchTok (s.drop i)).isSome)

/-- The token is a valid escape sequence: marker present, remainder parses
as hex, and the value is a legal code point. -/
def isValidEscape (p : List Nat) : Bool :=
  decide (p.take 2 = [92, 117]) &&
    (match pyIntHex (p.drop 2) with
     | some n => (chrPyInt n).isSome
     | none => false)

/-- The string contains a valid escape sequence among its
whitespace-separated tokens. -/
def hasEscape (s : List Nat) : Bool :=
  (pySplit s).any isValidEscape

theorem hasSymbolToken_false_drop (s : List Nat)
    (h : hasSymbolToken s = false) : ∀ i, matchTok (s.drop i) = none := by
  intro i
  by_cases hi : i < s.length
  · rw [hasSymbolToken, List.any_eq_false] at h
    have h' := h i (List.mem_range.mpr hi)
    cases hm : matchTok (s.drop i) with
    | none => rfl
    | some Lk => rw [hm] at h'; simp at h'
  · rw [List.drop_eq_nil_of_le (by omega)]
    decide

theorem decode_id_of_noTokens (s : List Nat)
    (h : ∀ i, matchTok (s.drop i) = none) : decode_emoji_text s = s := by
  induction s with
  | nil => rfl
  | cons c rest ih =>
    have h0 : matchTok (c :: rest) = none := h 0
    rw [decode_emoji_cons, h0]
    show c :: decode_emoji_text rest = c :: rest
    rw [ih (fun i => h (i + 1))]

theorem takeWhile_all_nonws (l : List Nat)
    (h : ∀ c ∈ l, isSpacePy c = false) :
    l.takeWhile (fun d => !isSpacePy d) = l := by
  induction l with
  | nil => rfl
  | cons c cs ih =>
    rw [List.takeWhile_cons_of_pos (by simp [h c (by simp)])]
    rw [ih (fun d hd => h d (List.mem_cons_of_mem _ hd))]

theorem dropWhile_all_nonws (l : List Nat)
    (h : ∀ c ∈ l, isSpacePy c = false) :
    l.dropWhile (fun d => !isSpacePy d) = [] := by
  induction l with
  | nil => rfl
  | cons c cs ih =>
    rw [List.dropWhile_cons_of_pos (by simp [h c (by simp)])]
    exact ih (fun d hd => h d (List.mem_cons_of_mem _ hd))

/-- A nonempty whitespace-free string splits into exactly itself. -/
theorem pySplit_single (p : List Nat) (hne : p ≠ [])
    (h : ∀ c ∈ p, isSpacePy c = false) : pySplit p = [p] := by
  cases p with
  | nil => exact absurd rfl hne
  | cons c cs =>
    rw [pySplit_cons, if_neg (by simp [h c (by simp)]),
      takeWhile_all_nonws _ h, dropWhile_all_nonws _ h]
    rfl

theorem procToken_of_not_escape (p : List Nat)
    (h : isValidEscape p = false) : procToken p = p := by
  rw [procToken]
  by_cases hm : p.take 2 = [92, 117]
  · rw [if_pos hm]
    rw [isValidEscape, Bool.and_eq_false_iff] at h
    rcases h with h | h
    · simp [hm] at h
    · cases hp : pyIntHex (p.drop 2) with
      | none => rfl
      | some n =>
        rw [hp] at h
        have h' : (chrPyInt n).isSome = false := h
        show (match chrPyInt n with | some ch => [ch] | none => p) = p
        cases hc : chrPyInt n with
        | none => rfl
        | some ch => rw [hc] at h'; simp at h'
  · rw [if_neg hm]

theorem unicode_decode_id (s : List Nat)
    (hws : ∀ c ∈ s, isSpacePy c = false) (hesc : hasEscape s = false) :
    unicode_decode s = s := by
  cases s with
  | nil => rfl
  | cons c cs =>
    have hsplit := pySplit_single (c :: cs) (by simp) hws
    rw [hasEscape, hsplit] at hesc
    simp only [List.any_cons, List.any_nil, Bool.or_false] at hesc
    rw [unicode_decode, hsplit]
    simp only [List.map_cons, List.map_nil, List.flatten_cons,
      List.flatten_nil, List.append_nil]
    exact procToken_of_not_escape _ hesc

/-- C7 (amended): `decode_emoji_text` is idempotent on any string with no
valid Symbol tokens; `unicode_decode` is idempotent on any string with no
valid escape sequences PROVIDED the string also contains no whitespace —
without that proviso the claim is false (see the counterexample): decoding
removes the whitespace between tokens, and the concatenation can assemble a
valid escape where the original had none. -/
theorem C7_decode_idempotent_amended :
    (∀ s : List Nat, hasSymbolToken s = false →
      decode_emoji_text (decode_emoji_text s) = decode_emoji_text s) ∧
    (∀ s : List Nat, hasEscape s = false → (∀ c ∈ s, isSpacePy c = false) →
      unicode_decode (unicode_decode s) = unicode_decode s) := by
  constructor
  · intro s h
    have hid := decode_id_of_noTokens s (hasSymbolToken_false_drop s h)
    rw [hid]
    exact hid
  · intro s hesc hws
    have hid := unicode_decode_id s hws hesc
    rw [hid]
    exact hid

/-- C7 counterexample: the string `"\ u0041"` contains no valid Symbol token
and no valid escape sequence (its whitespace-split tokens are `"\"` and
`"u0041"`, neither of which starts with the marker), yet `unicode_decode` is
not idempotent on it: the first decode strips the space and produces
`"A"`, which the second decode turns into `"A"`. -/
theorem C7_not_idempotent_counterexample :
    hasSymbolToken [92, 32, 117, 48, 48, 52, 49] = false ∧
    hasEscape [92, 32, 117, 48, 48, 52, 49] = false ∧
    unicode_decode [92, 32, 117, 48, 48, 52, 49] = [92, 117, 48, 48, 52, 49] ∧
    unicode_decode (unicode_decode [92, 32, 117, 48, 48, 52, 49]) = [65] ∧
    unicode_decode (unicode_decode [92, 32, 117, 48, 48, 52, 49]) ≠
      unicode_decode [92, 32, 117, 48, 48, 52, 49] := by decide

theorem C7_decode_idempotent_amended_witness :
    (hasSymbolToken [104, 105, 33] = false ∧
      decode_emoji_text (decode_emoji_text [104, 105, 33]) =
        decode_emoji_text [104, 105, 33]) ∧
    (hasEscape [104, 105] = false ∧
      unicode_decode (unicode_decode [104, 105]) = unicode_decode [104, 105]) :=
  ⟨⟨by decide, C7_decode_idempotent_amended.1 [104, 105, 33] (by decide)⟩,
    ⟨by decide, C7_decode_idempotent_amended.2 [104, 105] (by decide)
      (by decide)⟩⟩

/-! Claims C2 and C6: the Escape codec. -/

/-- Big-endian base-16 digit values of `n`, with the single digit 0 for 0 as
Python's format emits it. -/
def digitsBE (n : Nat) : List Nat :=
  if n = 0 then [0] else (Nat.digits 16 n).reverse

theorem toHexGo_eq_digitsBE :
    ∀ f n (acc : List Nat), n < f →
      toHexGo f n acc = (digitsBE n).map hexDigit ++ acc := by
  intro f
  induction f with
  | zero => intro n acc hn; omega
  | succ f ih =>
    intro n acc hn
    rw [toHexGo]
    by_cases h16 : n < 16
    · rw [if_pos h16]
      by_cases h0 : n = 0
      · subst h0
        rw [digitsBE, if_pos rfl]
        rfl
      · rw [digitsBE, if_neg h0, Nat.digits_of_lt 16 n h0 h16]
        rfl
    · rw [if_neg h16]
      have hpos : 0 < n := by omega
      have hdiv : n / 16 < n := Nat.div_lt_self hpos (by omega)
      have hq : ¬ n / 16 = 0 := by omega
      have hstep : digitsBE n = digitsBE (n / 16) ++ [n % 16] := by
        rw [digitsBE, if_neg (by omega : ¬ n = 0),
          Nat.digits_def' (by norm_num : (1 : ℕ) < 16) hpos,
          List.reverse_cons, digitsBE, if_neg hq]
      rw [ih (n / 16) _ (by omega), hstep, List.map_append]
      simp

theorem toHex_eq (n : Nat) : toHex n = (digitsBE n).map hexDigit := by
  rw [toHex, toHexGo_eq_digitsBE (n + 1) n [] (Nat.lt_succ_self n),
    List.append_nil]

theorem digitsBE_lt (n : Nat) : ∀ v ∈ digitsBE n, v < 16 := by
  intro v hv
  rw [digitsBE] at hv
  by_cases h0 : n = 0
  · rw [if_pos h0] at hv
    simp at hv
    omega
  · rw [if_neg h0] at hv
    rw [List.mem_reverse] at hv
    exact Nat.digits_lt_base (by norm_num) hv

theorem digitsBE_ne_nil (n : Nat) : digitsBE n ≠ [] := by
  rw [digitsBE]
  by_cases h0 : n = 0
  · rw [if_pos h0]
    simp
  · rw [if_neg h0]
    simp [Nat.digits_ne_nil_iff_ne_zero, h0]

theorem hexDigit_range {v : Nat} (h : v < 16) :
    (48 ≤ hexDigit v ∧ hexDigit v ≤ 57) ∨
      (97 ≤ hexDigit v ∧ hexDigit v ≤ 102) := by
  rw [hexDigit]
  by_cases h10 : v < 10
  · rw [if_pos h10]
    omega
  · rw [if_neg h10]
    omega

theorem hexDigitVal_hexDigit {v : Nat} (h : v < 16) :
    hexDigitVal (hexDigit v) = some v := by
  by_cases h10 : v < 10
  · rw [hexDigit, if_pos h10, hexDigitVal,
      if_pos (by omega : 48 ≤ 48 + v ∧ 48 + v ≤ 57)]
    exact Option.some_inj.mpr (by omega)
  · rw [hexDigit, if_neg h10, hexDigitVal, if_neg (by omega),
      if_pos (by omega : 97 ≤ 87 + v ∧ 87 + v ≤ 102)]
    exact Option.some_inj.mpr (by omega)

theorem goDigits_map (vs : List Nat) :
    ∀ acc, (∀ v ∈ vs, v < 16) →
      goDigits acc (vs.map hexDigit) =
        some (vs.foldl (fun a v => 16 * a + v) acc) := by
  induction vs with
  | nil => intro acc _; rfl
  | cons v vs ih =>
    intro acc hall
    have hv : v < 16 := hall v (by simp)
    have h95 : ¬ hexDigit v = 95 := by
      have := hexDigit_range hv
      omega
    rw [List.map_cons, goDigits.eq_def]
    show (if hexDigit v = 95 then
        (match vs.map hexDigit with
        | [] => none
        | c' :: cs' =>
          match hexDigitVal c' with
          | some u => goDigits (16 * acc + u) cs'
          | none => none)
      else
        (match hexDigitVal (hexDigit v) with
        | some u => goDigits (16 * acc + u) (vs.map hexDigit)
        | none => none)) = _
    rw [if_neg h95, hexDigitVal_hexDigit hv]
    show goDigits (16 * acc + v) (vs.map hexDigit) = _
    rw [ih _ (fun u hu => hall u (by simp [hu]))]
    rfl

theorem parseDigits_map (vs : List Nat) (hne : vs ≠ [])
    (hall : ∀ v ∈ vs, v < 16) :
    parseDigits false (vs.map hexDigit) =
      some (vs.foldl (fun a v => 16 * a + v) 0) := by
  cases vs with
  | nil => exact absurd rfl hne
  | cons v vs =>
    have hv : v < 16 := hall v (by simp)
    rw [List.map_cons, parseDigits.eq_def]
    show (if false = true ∧ hexDigit v = 95 then
        (match vs.map hexDigit with
        | [] => none
        | c' :: cs' =>
          match hexDigitVal c' with
          | some u => goDigits u cs'
          | none => none)
      else
        (match hexDigitVal (hexDigit v) with
        | some u => goDigits u (vs.map hexDigit)
        | none => none)) = _
    rw [if_neg (by simp), hexDigitVal_hexDigit hv]
    show goDigits v (vs.map hexDigit) = _
    rw [goDigits_map vs v (fun u hu => hall u (by simp [hu]))]
    norm_num

theorem foldl16_eq_ofDigits (L : List Nat) :
    ∀ acc : Nat, L.foldl (fun a v => 16 * a + v) acc =
      acc * 16 ^ L.length + Nat.ofDigits 16 L.reverse := by
  induction L with
  | nil => intro acc; simp [Nat.ofDigits_nil]
  | cons d L ih =>
    intro acc
    rw [List.foldl_cons, ih, List.reverse_cons, Nat.ofDigits_append]
    simp only [Nat.ofDigits_cons, Nat.ofDigits_nil, List.length_cons,
      List.length_reverse, pow_succ]
    ring

theorem ofDigits_replicate_zero (k : Nat) :
    Nat.ofDigits 16 (List.replicate k 0) = 0 := by
  induction k with
  | zero => rfl
  | succ k ih => rw [List.replicate_succ, Nat.ofDigits_cons, ih]

theorem ofDigits_digitsBE_reverse (c : Nat) :
    Nat.ofDigits 16 (digitsBE c).reverse = c := by
  rw [digitsBE]
  by_cases h0 : c = 0
  · subst h0
    rw [if_pos rfl]
    simp [Nat.ofDigits_cons, Nat.ofDigits_nil]
  · rw [if_neg h0, List.reverse_reverse]
    exact Nat.ofDigits_digits 16 c

theorem foldl16_replicate_append (k : Nat) (L : List Nat) :
    (List.replicate k 0 ++ L).foldl (fun a v => 16 * a + v) 0 =
      L.foldl (fun a v => 16 * a + v) 0 := by
  induction k with
  | zero => rfl
  | succ k ih =>
    rw [List.replicate_succ, List.cons_append, List.foldl_cons]
    simpa using ih

theorem hex4_eq_map (c : Nat) :
    hex4 c = (List.replicate (4 - (toHex c).length) 0 ++ digitsBE c).map
      hexDigit := by
  rw [hex4, List.map_append, List.map_replicate, ← toHex_eq]
  rfl

theorem hex4_mem_range (c : Nat) :
    ∀ d ∈ hex4 c, (48 ≤ d ∧ d ≤ 57) ∨ (97 ≤ d ∧ d ≤ 102) := by
  intro d hd
  rw [hex4_eq_map] at hd
  obtain ⟨v, hv, rfl⟩ := List.mem_map.mp hd
  have hv16 : v < 16 := by
    rcases List.mem_append.mp hv with h | h
    · have := List.eq_of_mem_replicate h
      omega
    · exact digitsBE_lt c v h
  exact hexDigit_range hv16

theorem hex4_ne_nil (c : Nat) : hex4 c ≠ [] := by
  rw [hex4_eq_map]
  simp [digitsBE_ne_nil]

theorem isSpacePy_false_of_range {d : Nat}
    (h : (48 ≤ d ∧ d ≤ 57) ∨ (97 ≤ d ∧ d ≤ 102)) : isSpacePy d = false := by
  simp only [isSpacePy, Bool.or_eq_false_iff, beq_eq_false_iff_ne, ne_eq,
    Bool.and_eq_false_iff, decide_eq_false_iff_not, not_le]
  omega

theorem stripWs_eq_self (s : List Nat)
    (h : ∀ c ∈ s, isSpacePy c = false) : stripWs s = s := by
  rw [stripWs]
  cases s with
  | nil => rfl
  | cons c cs =>
    rw [List.dropWhile_cons_of_neg (by simp [h c (by simp)])]
    cases hrev : (c :: cs).reverse with
    | nil => simp at hrev
    | cons d ds =>
      have hd : d ∈ c :: cs := by
        rw [← List.mem_reverse, hrev]
        simp
      rw [List.dropWhile_cons_of_neg (by simp [h d hd]), ← hrev,
        List.reverse_reverse]

theorem readSign_no_sign (s : List Nat)
    (h : ∀ d ∈ s, (48 ≤ d ∧ d ≤ 57) ∨ (97 ≤ d ∧ d ≤ 102)) :
    readSign s = (false, s) := by
  cases s with
  | nil => rfl
  | cons c cs =>
    have hc := h c (by simp)
    rw [readSign, if_neg (by omega), if_neg (by omega)]

theorem readPrefix0x_no_prefix (s : List Nat)
    (h : ∀ d ∈ s, (48 ≤ d ∧ d ≤ 57) ∨ (97 ≤ d ∧ d ≤ 102)) :
    readPrefix0x s = (false, s) := by
  cases s with
  | nil => rfl
  | cons a s' =>
    cases s' with
    | nil => rfl
    | cons b rest =>
      have hb := h b (by simp)
      rw [readPrefix0x, if_neg (by omega)]

theorem pyIntHex_hex4 (c : Nat) : pyIntHex (hex4 c) = some (c : Int) := by
  have hP := hex4_mem_range c
  have hws : ∀ d ∈ hex4 c, isSpacePy d = false :=
    fun d hd => isSpacePy_false_of_range (hP d hd)
  have h1 : stripWs (hex4 c) = hex4 c := stripWs_eq_self _ hws
  have h2 : readSign (hex4 c) = (false, hex4 c) := readSign_no_sign _ hP
  have h3 : readPrefix0x (hex4 c) = (false, hex4 c) :=
    readPrefix0x_no_prefix _ hP
  have hne : List.replicate (4 - (toHex c).length) 0 ++ digitsBE c ≠ [] := by
    simp [digitsBE_ne_nil]
  have hall : ∀ v ∈ List.replicate (4 - (toHex c).length) 0 ++ digitsBE c,
      v < 16 := by
    intro v hv
    rcases List.mem_append.mp hv with h | h
    · have := List.eq_of_mem_replicate h
      omega
    · exact digitsBE_lt c v h
  rw [pyIntHex]
  simp only [h1, h2, h3]
  rw [hex4_eq_map, parseDigits_map _ hne hall]
  rw [foldl16_replicate_append, foldl16_eq_ofDigits,
    ofDigits_digitsBE_reverse]
  simp

theorem escChar_nonws (c : Nat) : ∀ d ∈ escChar c, isSpacePy d = false := by
  intro d hd
  rw [escChar] at hd
  simp only [List.mem_cons] at hd
  rcases hd with rfl | rfl | hd
  · decide
  · decide
  · exact isSpacePy_false_of_range (hex4_mem_range c d hd)

theorem takeWhile_nonws_append (p rest : List Nat)
    (h : ∀ c ∈ p, isSpacePy c = false) :
    (p ++ 32 :: rest).takeWhile (fun d => !isSpacePy d) = p ∧
    (p ++ 32 :: rest).dropWhile (fun d => !isSpacePy d) = 32 :: rest := by
  induction p with
  | nil =>
    rw [List.nil_append]
    constructor
    · rw [List.takeWhile_cons_of_neg (by decide)]
    · rw [List.dropWhile_cons_of_neg (by decide)]
  | cons c cs ih =>
    have hc : isSpacePy c = false := h c (by simp)
    have ih' := ih (fun d hd => h d (List.mem_cons_of_mem _ hd))
    rw [List.cons_append]
    constructor
    · rw [List.takeWhile_cons_of_pos (by simp [hc]), ih'.1]
    · rw [List.dropWhile_cons_of_pos (by simp [hc]), ih'.2]

/-- `str.split()` is a left inverse of `" ".join` on lists of nonempty
whitespace-free parts. -/
theorem pySplit_joinSep (ps : List (List Nat))
    (hne : ∀ p ∈ ps, p ≠ [])
    (hws : ∀ p ∈ ps, ∀ c ∈ p, isSpacePy c = false) :
    pySplit (joinSep [32] ps) = ps := by
  induction ps with
  | nil => rfl
  | cons p ps ih =>
    cases ps with
    | nil => exact pySplit_single p (hne p (by simp)) (hws p (by simp))
    | cons p' ps' =>
      rw [joinSep]
      have hp := hws p (by simp)
      have hpne := hne p (by simp)
      cases p with
      | nil => exact absurd rfl hpne
      | cons c cs =>
        have hTD := takeWhile_nonws_append (c :: cs)
          (joinSep [32] (p' :: ps')) hp
        simp only [List.cons_append, List.nil_append] at hTD ⊢
        rw [List.append_assoc] at *
        simp only [List.cons_append, List.nil_append] at *
        rw [pySplit_cons, if_neg (by simp [hp c (by simp)]), hTD.1, hTD.2,
          pySplit_cons, if_pos (by decide)]
        rw [ih (fun q hq => hne q (by simp [hq]))
          (fun q hq => hws q (by simp [hq]))]

theorem flatten_map_singleton (s : List Nat) :
    (s.map (fun c => ([c] : List Nat))).flatten = s := by
  induction s with
  | nil => rfl
  | cons c cs ih => simp [ih]

theorem procToken_escChar (c : Nat) (hc : c ≤ 1114111) :
    procToken (escChar c) = [c] := by
  have htake : (escChar c).take 2 = [92, 117] := rfl
  have hdrop : (escChar c).drop 2 = hex4 c := rfl
  rw [procToken, if_pos htake, hdrop, pyIntHex_hex4]
  show (match chrPyInt (c : Int) with
    | some ch => [ch]
    | none => escChar c) = [c]
  rw [chrPyInt,
    if_pos ⟨Int.natCast_nonneg c, by exact_mod_cast hc⟩]
  simp

/-- C2: the Escape scheme round-trips every whitespace-free string (every
character of a Python string is a code point at most 0x10FFFF), and the
empty string encodes to the empty string and decodes back to itself. -/
theorem C2_escape_roundtrip :
    (∀ s : List Nat, (∀ c ∈ s, isSpacePy c = false) →
      (∀ c ∈ s, c ≤ 1114111) →
      unicode_decode (unicode_encode s) = s) ∧
    unicode_encode [] = [] ∧ unicode_decode [] = [] := by
  refine ⟨?_, rfl, rfl⟩
  intro s hws hcp
  have hsplit := pySplit_joinSep (s.map escChar)
    (fun p hp => by
      obtain ⟨c, _, rfl⟩ := List.mem_map.mp hp
      simp [escChar])
    (fun p hp => by
      obtain ⟨c, _, rfl⟩ := List.mem_map.mp hp
      exact escChar_nonws c)
  rw [unicode_encode, unicode_decode, hsplit, List.map_map]
  have hmap : s.map (procToken ∘ escChar) = s.map (fun c => [c]) :=
    List.map_congr_left (fun c hc => procToken_escChar c (hcp c hc))
  rw [hmap, flatten_map_singleton]

theorem C2_escape_roundtrip_witness :
    (∀ c ∈ ([72, 105] : List Nat), isSpacePy c = false) ∧
    (∀ c ∈ ([72, 105] : List Nat), c ≤ 1114111) ∧
    unicode_decode (unicode_encode [72, 105]) = [72, 105] :=
  ⟨by decide, by decide,
    C2_escape_roundtrip.1 [72, 105] (by decide) (by decide)⟩

/-- Modelled from the spec (§4.3), for comparison with the source's
`unicode_encode`: the escape for one character is the fixed two-character
marker (backslash, letter u) followed by the character's code point written
in lowercase hexadecimal digits, zero-padded on the left to 4 digits. -/
def escCharSpec (c : Nat) : List Nat :=
  [92, 117] ++
    List.replicate (4 - ((Nat.digits 16 c).reverse.map hexDigit).length) 48 ++
    (Nat.digits 16 c).reverse.map hexDigit

theorem escChar_eq_spec (c : Nat) : escChar c = escCharSpec c := by
  rw [escChar, escCharSpec]
  by_cases h0 : c = 0
  · subst h0
    simp only [Nat.digits_zero, List.reverse_nil, List.map_nil,
      List.length_nil]
    decide
  · rw [hex4, toHex_eq, digitsBE, if_neg h0]
    rfl

/-- C6: `unicode_encode` maps each character independently to the
spec-described escape — marker `\u` plus the code point in lowercase hex
zero-padded to 4 digits — for the full code-point range (not only letters),
and joins the per-character escapes with a single space. -/
theorem C6_escape_encode_shape (s : List Nat) :
    unicode_encode s = joinSep [32] (s.map escCharSpec) := by
  rw [unicode_encode]
  congr 1
  exact List.map_congr_left (fun c _ => escChar_eq_spec c)

end Glyphmoji
